import Mathlib

/-!
Verification development for the LABO repository (src/zipper.py and
src/unzipper.py): a shallow embedding of the size-bounded zip batcher,
the archive writer/reader pipeline and the size-string parser, together
with theorems settling the specified properties.

Paths are modelled as strings (the scan yields paths relative to the
scan root, since zip_batch stores arcname = os.path.relpath(filepath,
path_to_files)); file contents are modelled as byte lists; sizes are
natural numbers of bytes.
-/

/-- Entry collected by the scan loop of save_in_zip (zipper.py lines 30-41):
a file path paired with its size in bytes, as appended to files_to_zip. -/
abbrev Entry := String × Nat

/-- Scan filter of save_in_zip (zipper.py lines 37-41): a file is kept in
files_to_zip unless filesize > limit; kept files are appended in walk order. -/
def files_to_zip (walk : List Entry) (limit : Nat) : List Entry :=
  walk.filter (fun e => !(decide (limit < e.2)))

/-- Paths of the files skipped with a warning by the scan loop
(zipper.py line 38): exactly those with filesize > limit. -/
def skipped_warnings (walk : List Entry) (limit : Nat) : List String :=
  (walk.filter (fun e => decide (limit < e.2))).map Prod.fst

/-- Comparator embedded from files_to_zip.sort(key=lambda x: x[1], reverse=True)
(zipper.py line 43): a is allowed before b when a's size is at least b's. -/
def sizeDescLe (a b : Entry) : Bool := decide (b.2 ≤ a.2)

/-- Stable descending-by-size sort of zipper.py line 43. CPython's list.sort
with reverse=True is a stable sort with respect to the reversed key order,
which is exactly mergeSort with the sizeDescLe comparator. -/
def sortBySizeDesc (files : List Entry) : List Entry :=
  files.mergeSort sizeDescLe

/-- Batching loop of save_in_zip (zipper.py lines 45-61), with accumulator
arguments batches, current_batch and current_batch_size. When
current_batch_size + filesize > limit, the current batch is appended to
batches if non-empty and the entry starts a fresh batch; otherwise the entry
is appended to the current batch. After the loop the final non-empty batch
is appended. -/
def batchLoop (limit : Nat) : List Entry → List (List Entry) → List Entry → Nat → List (List Entry)
  | [], bs, cur, _ => if cur.isEmpty then bs else bs ++ [cur]
  | e :: rest, bs, cur, sz =>
    if limit < sz + e.2 then
      batchLoop limit rest (if cur.isEmpty then bs else bs ++ [cur]) [e] e.2
    else
      batchLoop limit rest bs (cur ++ [e]) (sz + e.2)

/-- Batches computed by save_in_zip (zipper.py lines 43-61): the scan result
is filtered, sorted by size descending, then fed to the batching loop with
empty initial accumulators. -/
def batches (walk : List Entry) (limit : Nat) : List (List Entry) :=
  batchLoop limit (sortBySizeDesc (files_to_zip walk limit)) [] [] 0

/-- Total size in bytes of a batch: the sum of its members' sizes. -/
def batchSize (b : List Entry) : Nat := (b.map Prod.snd).sum

/-- Batching loop exactly as worded by spec §4.3 step 3, for refinement
comparison with batchLoop: close the current batch only when adding the entry
would exceed the limit AND the current batch is non-empty; otherwise append
the entry to the current batch. -/
def batchLoopSpec (limit : Nat) : List Entry → List (List Entry) → List Entry → Nat → List (List Entry)
  | [], bs, cur, _ => if cur.isEmpty then bs else bs ++ [cur]
  | e :: rest, bs, cur, sz =>
    if limit < sz + e.2 ∧ cur ≠ [] then
      batchLoopSpec limit rest (bs ++ [cur]) [e] e.2
    else
      batchLoopSpec limit rest bs (cur ++ [e]) (sz + e.2)

/-- One gibibyte, the unit of the spec's batching scenario. -/
def GB : Nat := 1024 ^ 3

/-- File set scanned from the input directory: each regular file's path
relative to the scan root paired with its byte contents. A directory tree
yields distinct relative paths. -/
abbrev FileSet := List (String × List Nat)

/-- Walk result of save_in_zip over a file set: (path, size) pairs where the
size reported by os.path.getsize is the byte length of the contents. -/
def walkOf (files : FileSet) : List Entry :=
  files.map (fun f => (f.1, f.2.length))

/-- Contents of the file at path p, as read from disk by zipf.write inside
zip_batch (zipper.py line 71); the paths of a scanned tree are distinct, so
find? retrieves the unique file at p. -/
def readFile (files : FileSet) (p : String) : List Nat :=
  ((files.find? (fun f => f.1 == p)).map Prod.snd).getD []

/-- Archive written by zip_batch (zipper.py lines 66-73) for one batch: each
member is stored under arcname = its path relative to the scan root together
with its byte contents (ZIP_DEFLATED compression is lossless). -/
def zip_batch (files : FileSet) (batch : List Entry) : List (String × List Nat) :=
  batch.map (fun e => (e.1, readFile files e.1))

/-- Worker bound of the pack pool (zipper.py line 75). -/
def max_workers (numBatches : Nat) : Nat := min 16 numBatches

/-- Model of save_in_zip (zipper.py lines 12-89): scan, filter, sort, batch,
then zip each batch in a ThreadPoolExecutor. CPython's ThreadPoolExecutor
constructor raises ValueError("max_workers must be greater than 0") when
given max_workers ≤ 0, which happens exactly when there are no batches. On
success the produced archives (files_<index>.zip, one per batch, indexed in
batch-closing order) are returned. -/
def save_in_zip (files : FileSet) (limit : Nat) : Except String (List (List (String × List Nat))) :=
  let bs := batches (walkOf files) limit
  if max_workers bs.length = 0 then
    Except.error "ValueError: max_workers must be greater than 0"
  else
    Except.ok (bs.map (zip_batch files))

/-- Output directory state during extraction: a partial map from destination
relative path to file contents. -/
abbrev Disk := String → Option (List Nat)

/-- Effect of zip_ref.extractall(output_dir) (unzipper.py line 37) on the
output directory: every entry of the archive is written to its stored
relative path, overwriting any file already present at that path. -/
def extractall (out : Disk) (archive : List (String × List Nat)) : Disk :=
  archive.foldl (fun d e => fun q => if q = e.1 then some e.2 else d q) out

/-- Extraction effect of the unzip_files workers (unzipper.py lines 34-42):
every archive's entries are written into the output directory. Archives
produced by save_in_zip hold disjoint path sets, so the worker interleaving
does not affect the final state. -/
def unzip_files_extract (archives : List (List (String × List Nat))) (out : Disk) : Disk :=
  archives.foldl extractall out

/-- Archive handed to unzip_files, as seen by the model: whether opening it
with zipfile.ZipFile succeeds (it is not corrupt or missing), the entries
its extractall writes, and the error its extraction worker raises (disk
full, permission denied), if any. -/
structure ZipArchive where
  openOk : Bool
  entries : List (String × List Nat)
  extractErr : Option String

/-- Outcome of one unzip_file worker (unzipper.py lines 34-39). -/
def unit_result (a : ZipArchive) : Except String Unit :=
  match a.extractErr with
  | some msg => Except.error msg
  | none => Except.ok ()

/-- Model of unzip_files (unzipper.py lines 25-43): a counting pass first
opens every archive (lines 28-31), raising if any open fails, before any
extraction happens; otherwise executor.map(unzip_file, zip_files) submits
every archive to the pool, but the iterator it returns is never consumed,
so worker exceptions are discarded and the function returns normally. The
result is the final output-directory state paired with the outcome the
caller sees. -/
def unzip_files (zips : List ZipArchive) (out : Disk) : Disk × Except String Unit :=
  if zips.all (fun a => a.openOk) then
    (unzip_files_extract (zips.map (fun a => a.entries)) out, Except.ok ())
  else
    (out, Except.error "zipfile.BadZipFile")

/-- Worker bound of the unpack pool: unzipper.py line 41 constructs
ThreadPoolExecutor() with no max_workers argument, so CPython's default
min(32, (os.cpu_count() or 1) + 4) applies, independent of the number of
archives. -/
def default_max_workers (cpuCount : Nat) : Nat := min 32 (max cpuCount 1 + 4)

/-- ASCII whitespace for the model of str.strip(); the SizeParser grammar
contains no whitespace characters. -/
def pyIsSpace (c : Char) : Bool := c == ' ' || c == '\t' || c == '\n' || c == '\r'

/-- Model of str.strip() on the character list of a string: remove leading
and trailing whitespace. -/
def pyStrip (s : List Char) : List Char :=
  ((s.dropWhile pyIsSpace).reverse.dropWhile pyIsSpace).reverse

/-- Model of str.endswith(u). -/
def pyEndsWith (s u : List Char) : Bool := decide (u <:+ s)

/-- Model of str.rstrip(chars): remove trailing characters that belong to
the character SET chars (not suffix removal) — zipper.py line 96 relies on
this to strip the matched unit from the numeric part. -/
def pyRstrip (s chars : List Char) : List Char :=
  (s.reverse.dropWhile (fun c => decide (c ∈ chars))).reverse

/-- Numeric value of a decimal digit string, most significant digit first. -/
def digitsVal (s : List Char) : Nat :=
  s.foldl (fun a c => a * 10 + (c.toNat - 48)) 0

/-- Model of int(str) on the strings of the SizeParser grammar: an unsigned
decimal integer literal, parsed exactly with arbitrary precision; any other
remainder raises ValueError, modelled as none. -/
def pyInt (s : List Char) : Option Nat :=
  if s ≠ [] ∧ s.all Char.isDigit then some (digitsVal s) else none

/-- Rounding of a natural number to the nearest IEEE-754 binary64 value
(53-bit significand, ties to even): the value CPython's float(str) returns
for an unsigned decimal integer literal. Numbers below 2^53 are exact. -/
def round53 (n : Nat) : Nat :=
  if n < 2 ^ 53 then n
  else
    let e := Nat.log2 n - 52
    let q := n / 2 ^ e
    let r := n % 2 ^ e
    if 2 ^ (e - 1) < r ∨ (r = 2 ^ (e - 1) ∧ q % 2 = 1) then (q + 1) * 2 ^ e
    else q * 2 ^ e

/-- Model of float(str) on an unsigned decimal integer literal: CPython
parses the literal to the nearest binary64 value. In parse_size this float
is multiplied by a power-of-two unit and truncated by int(...), both exact
on binary64, so the byte count is the rounded number times the unit. -/
def pyFloatInt (s : List Char) : Option Nat := (pyInt s).map round53

/-- Unit table of parse_size (zipper.py line 92) in dict insertion order,
which is the priority order the loop checks: GB, MB, KB, then B. -/
def units : List (List Char × Nat) :=
  [(['G', 'B'], 1024 ^ 3), (['M', 'B'], 1024 ^ 2), (['K', 'B'], 1024), (['B'], 1)]

/-- Loop of parse_size over the unit table (zipper.py lines 94-96): the
first unit that the upper-cased stripped string ends with is selected. -/
def findUnit (t : List Char) : List (List Char × Nat) → Option (List Char × Nat)
  | [] => none
  | u :: rest => if pyEndsWith t u.1 then some u else findUnit t rest

/-- Model of parse_size (zipper.py lines 91-97): upper-case and strip the
input; for the first matching unit suffix return
int(float(rstripped-number) * multiplier) — the rounded number times the
power-of-two multiplier — and with no matching unit return int(s), exact at
arbitrary precision. -/
def parse_size (s : String) : Option Nat :=
  let t := pyStrip (s.data.map Char.toUpper)
  match findUnit t units with
  | some u => (pyFloatInt (pyRstrip t u.1)).map (fun n => n * u.2)
  | none => pyInt t

theorem batchLoop_flatten (limit : Nat) (files : List Entry) :
    ∀ (bs : List (List Entry)) (cur : List Entry) (sz : Nat),
    (batchLoop limit files bs cur sz).flatten = bs.flatten ++ (cur ++ files) := by
  induction files with
  | nil =>
    intro bs cur sz
    cases cur with
    | nil => simp [batchLoop]
    | cons c cs => simp [batchLoop]
  | cons e rest ih =>
    intro bs cur sz
    by_cases h : limit < sz + e.2
    · cases cur with
      | nil => simp [batchLoop, h, ih]
      | cons c cs => simp [batchLoop, h, ih]
    · simp [batchLoop, h, ih]

theorem batchLoop_size_le (limit : Nat) (files : List Entry)
    (hf : ∀ e ∈ files, e.2 ≤ limit) :
    ∀ (bs : List (List Entry)) (cur : List Entry) (sz : Nat),
    (∀ b ∈ bs, batchSize b ≤ limit) → sz = batchSize cur → sz ≤ limit →
    ∀ b ∈ batchLoop limit files bs cur sz, batchSize b ≤ limit := by
  induction files with
  | nil =>
    intro bs cur sz hbs hcur hsz b hb
    cases cur with
    | nil =>
      simp [batchLoop] at hb
      exact hbs b hb
    | cons c cs =>
      simp [batchLoop] at hb
      rcases hb with hb | hb
      · exact hbs b hb
      · rw [hb, ← hcur]; exact hsz
  | cons e rest ih =>
    intro bs cur sz hbs hcur hsz b hb
    have he : e.2 ≤ limit := hf e (by simp)
    have hrest : ∀ x ∈ rest, x.2 ≤ limit := fun x hx => hf x (by simp [hx])
    by_cases h : limit < sz + e.2
    · rw [batchLoop, if_pos h] at hb
      refine ih hrest _ [e] e.2 ?_ (by simp [batchSize]) he b hb
      intro b2 hb2
      cases cur with
      | nil => exact hbs b2 (by simpa using hb2)
      | cons c cs =>
        simp at hb2
        rcases hb2 with hb2 | hb2
        · exact hbs b2 hb2
        · rw [hb2, ← hcur]; exact hsz
    · rw [batchLoop, if_neg h] at hb
      refine ih hrest bs (cur ++ [e]) (sz + e.2) hbs ?_ (by omega) b hb
      simp [batchSize] at hcur ⊢
      omega

theorem mem_files_to_zip_size_le {walk : List Entry} {limit : Nat} :
    ∀ e ∈ files_to_zip walk limit, e.2 ≤ limit := by
  intro e he
  have := List.of_mem_filter he
  simp at this
  exact this

theorem batches_flatten_perm (walk : List Entry) (limit : Nat) :
    (batches walk limit).flatten.Perm (files_to_zip walk limit) := by
  rw [batches, batchLoop_flatten]
  simpa [sortBySizeDesc] using List.mergeSort_perm (files_to_zip walk limit) sizeDescLe

/-- C1: for every input list of (path, size) entries each with size ≤ limit,
the batching loop of save_in_zip partitions its input — the concatenation of
the produced batches is exactly the input list, so every entry lands in
exactly one batch — and every produced batch's total size is ≤ limit.
Moreover, for the full save_in_zip pipeline, the batches' entries are a
permutation of the filtered scan result and every batch total is ≤ limit. -/
theorem save_in_zip_partition_law :
    (∀ (limit : Nat) (files : List Entry), (∀ e ∈ files, e.2 ≤ limit) →
      (batchLoop limit files [] [] 0).flatten = files ∧
      ∀ b ∈ batchLoop limit files [] [] 0, batchSize b ≤ limit) ∧
    (∀ (walk : List Entry) (limit : Nat),
      (batches walk limit).flatten.Perm (files_to_zip walk limit) ∧
      ∀ b ∈ batches walk limit, batchSize b ≤ limit) := by
  constructor
  · intro limit files hfiles
    refine ⟨by simpa using batchLoop_flatten limit files [] [] 0, ?_⟩
    exact batchLoop_size_le limit files hfiles [] [] 0 (by simp) (by simp [batchSize]) (by simp)
  · intro walk limit
    refine ⟨batches_flatten_perm walk limit, ?_⟩
    have hfiles : ∀ e ∈ sortBySizeDesc (files_to_zip walk limit), e.2 ≤ limit := by
      intro e he
      exact mem_files_to_zip_size_le e (by simpa [sortBySizeDesc] using he)
    exact batchLoop_size_le limit _ hfiles [] [] 0 (by simp) (by simp [batchSize]) (by simp)

/-- Witness for C1 at a concrete input: files of sizes 2 and 2 with limit 3. -/
theorem save_in_zip_partition_law_witness :
    (batchLoop 3 [("a", 2), ("b", 2)] [] [] 0).flatten = [("a", 2), ("b", 2)] ∧
    ∀ b ∈ batchLoop 3 [("a", 2), ("b", 2)] [] [] 0, batchSize b ≤ 3 :=
  save_in_zip_partition_law.1 3 [("a", 2), ("b", 2)] (by decide)

theorem sizeDescLe_trans : ∀ a b c : Entry,
    sizeDescLe a b = true → sizeDescLe b c = true → sizeDescLe a c = true := by
  intro a b c hab hbc
  simp [sizeDescLe] at hab hbc ⊢
  omega

theorem sizeDescLe_total : ∀ a b : Entry, (sizeDescLe a b || sizeDescLe b a) = true := by
  intro a b
  simp [sizeDescLe]
  omega

theorem sortBySizeDesc_sorted (l : List Entry) :
    List.Pairwise (fun a b : Entry => b.2 ≤ a.2) (sortBySizeDesc l) := by
  have := List.sorted_mergeSort sizeDescLe_trans sizeDescLe_total l
  rw [sortBySizeDesc]
  exact this.imp (by intro a b h; simpa [sizeDescLe] using h)

theorem sortBySizeDesc_stable (l : List Entry) (s : Nat) :
    (sortBySizeDesc l).filter (fun e => decide (e.2 = s)) =
      l.filter (fun e => decide (e.2 = s)) := by
  set p : Entry → Bool := fun e => decide (e.2 = s) with hp
  have hpw : List.Pairwise (fun a b => sizeDescLe a b = true) (l.filter p) := by
    apply List.pairwise_of_forall_mem_list
    intro a ha b hb
    have ha2 : a.2 = s := by simpa [hp] using List.of_mem_filter ha
    have hb2 : b.2 = s := by simpa [hp] using List.of_mem_filter hb
    simp [sizeDescLe, ha2, hb2]
  have hsub : (l.filter p).Sublist (sortBySizeDesc l) := by
    rw [sortBySizeDesc]
    exact List.sublist_mergeSort sizeDescLe_trans sizeDescLe_total hpw (List.filter_sublist l)
  have hsub2 : (l.filter p).Sublist ((sortBySizeDesc l).filter p) := by
    have := List.Sublist.filter p hsub
    rwa [List.filter_filter, show (fun a => p a && p a) = p from by funext a; cases p a <;> simp] at this
  have hperm : ((sortBySizeDesc l).filter p).Perm (l.filter p) := by
    exact List.Perm.filter p (by rw [sortBySizeDesc]; exact List.mergeSort_perm l sizeDescLe)
  exact (List.Sublist.eq_of_length hsub2 hperm.length_eq.symm).symm

theorem sortBySizeDesc_of_sorted {l : List Entry}
    (h : List.Pairwise (fun a b : Entry => b.2 ≤ a.2) l) : sortBySizeDesc l = l := by
  rw [sortBySizeDesc]
  exact List.mergeSort_of_sorted (h.imp (by intro a b hh; simpa [sizeDescLe] using hh))

theorem batchLoop_eq_spec (limit : Nat) (files : List Entry) :
    ∀ (bs : List (List Entry)) (cur : List Entry) (sz : Nat),
    (cur = [] → sz = 0) → batchLoop limit files bs cur sz = batchLoopSpec limit files bs cur sz := by
  induction files with
  | nil => intro bs cur sz _; rfl
  | cons e rest ih =>
    intro bs cur sz hcur
    cases cur with
    | nil =>
      have hsz : sz = 0 := hcur rfl
      subst hsz
      rw [batchLoop, batchLoopSpec]
      have hspec : ¬(limit < 0 + e.2 ∧ ([] : List Entry) ≠ []) := by simp
      rw [if_neg hspec]
      by_cases h : limit < 0 + e.2
      · rw [if_pos h]
        simpa using ih bs [e] e.2 (by simp)
      · rw [if_neg h]
        simpa using ih bs [e] e.2 (by simp)
    | cons c cs =>
      rw [batchLoop, batchLoopSpec]
      by_cases h : limit < sz + e.2
      · rw [if_pos h,
          if_pos (show limit < sz + e.2 ∧ (c :: cs : List Entry) ≠ [] from ⟨h, by simp⟩)]
        simpa using ih (bs ++ [c :: cs]) [e] e.2 (by simp)
      · rw [if_neg h,
          if_neg (show ¬(limit < sz + e.2 ∧ (c :: cs : List Entry) ≠ []) from by simp [h])]
        exact ih bs ((c :: cs) ++ [e]) (sz + e.2) (by simp)

/-- C3: the Batcher is greedy decreasing next-fit — the sort of zipper.py
line 43 is descending by size and stable (entries of equal size keep their
scan order), the batching loop coincides with the spec's step-3 description
(close exactly when the entry would overflow a non-empty current batch) from
any state where an empty current batch has size 0, and the concrete scenario
of sizes [8GB, 8GB, 8GB, 1GB] with limit 20GB yields exactly the two batches
[8GB, 8GB] and [8GB, 1GB] in that closing order, of totals 16GB and 9GB. -/
theorem batcher_greedy_decreasing :
    (∀ l : List Entry, List.Pairwise (fun a b : Entry => b.2 ≤ a.2) (sortBySizeDesc l)) ∧
    (∀ (l : List Entry) (s : Nat),
      (sortBySizeDesc l).filter (fun e => decide (e.2 = s)) =
        l.filter (fun e => decide (e.2 = s))) ∧
    (∀ (limit : Nat) (files : List Entry) (bs : List (List Entry)) (cur : List Entry) (sz : Nat),
      (cur = [] → sz = 0) → batchLoop limit files bs cur sz = batchLoopSpec limit files bs cur sz) ∧
    batches [("a", 8 * GB), ("b", 8 * GB), ("c", 8 * GB), ("d", 1 * GB)] (20 * GB) =
      [[("a", 8 * GB), ("b", 8 * GB)], [("c", 8 * GB), ("d", 1 * GB)]] ∧
    (batches [("a", 8 * GB), ("b", 8 * GB), ("c", 8 * GB), ("d", 1 * GB)] (20 * GB)).map batchSize =
      [16 * GB, 9 * GB] := by
  have hfil : files_to_zip [("a", 8 * GB), ("b", 8 * GB), ("c", 8 * GB), ("d", 1 * GB)] (20 * GB) =
      [("a", 8 * GB), ("b", 8 * GB), ("c", 8 * GB), ("d", 1 * GB)] := by decide
  have hsort : sortBySizeDesc [("a", 8 * GB), ("b", 8 * GB), ("c", 8 * GB), ("d", 1 * GB)] =
      [("a", 8 * GB), ("b", 8 * GB), ("c", 8 * GB), ("d", 1 * GB)] :=
    sortBySizeDesc_of_sorted (by decide)
  refine ⟨sortBySizeDesc_sorted, sortBySizeDesc_stable, batchLoop_eq_spec, ?_, ?_⟩
  · rw [batches, hfil, hsort]
    decide
  · rw [batches, hfil, hsort]
    decide

/-- Witness for C3's hypothesis-bearing conjunct at a concrete state. -/
theorem batcher_greedy_decreasing_witness :
    batchLoop 3 [("a", 2), ("b", 2)] [] [] 0 = batchLoopSpec 3 [("a", 2), ("b", 2)] [] [] 0 :=
  batcher_greedy_decreasing.2.2.1 3 [("a", 2), ("b", 2)] [] [] 0 (by decide)

/-- C4 (code bug): when the input directory holds no files the batch list is
empty, max_workers is min(16, 0) = 0, and the ThreadPoolExecutor constructor
raises ValueError instead of save_in_zip returning an empty archive list. -/
theorem save_in_zip_empty_input_raises (limit : Nat) :
    save_in_zip [] limit = Except.error "ValueError: max_workers must be greater than 0" := by
  simp [save_in_zip, batches, walkOf, files_to_zip, sortBySizeDesc, batchLoop, max_workers]

/-- C10: unzip_files opens every archive to count entries before extracting
anything; when some archive fails to open, the run errors during this
counting pass with the output directory untouched — no entry of any archive
has been extracted. -/
theorem unzip_files_validation_pass (zips : List ZipArchive) (out : Disk)
    (h : ∃ a ∈ zips, a.openOk = false) :
    (unzip_files zips out).1 = out ∧
    (unzip_files zips out).2 = Except.error "zipfile.BadZipFile" := by
  have hall : zips.all (fun a => a.openOk) = false := by
    rcases h with ⟨a, ha, hopen⟩
    apply Bool.eq_false_iff.mpr
    intro htrue
    have := List.all_eq_true.mp htrue a ha
    simp [hopen] at this
  constructor <;> simp [unzip_files, hall]

/-- Witness for C10: a single unreadable archive over a fresh output
directory. -/
theorem unzip_files_validation_pass_witness :
    (unzip_files [⟨false, [], none⟩] (fun _ => none)).1 = (fun _ => none) ∧
    (unzip_files [⟨false, [], none⟩] (fun _ => none)).2 = Except.error "zipfile.BadZipFile" :=
  unzip_files_validation_pass [⟨false, [], none⟩] (fun _ => none) ⟨⟨false, [], none⟩, by simp, rfl⟩

/-- C5 (code bug): unzip_files never consumes the iterator returned by
executor.map, so a worker failure — here a disk-full error raised while
extracting the only archive — is discarded and the caller sees success; the
failure is not surfaced after the pool drains. -/
theorem unzip_files_swallows_worker_failure :
    (unzip_files [ZipArchive.mk true [] (some "OSError: disk full")] (fun _ => none)).2 =
      Except.ok () ∧
    unit_result (ZipArchive.mk true [] (some "OSError: disk full")) =
      Except.error "OSError: disk full" := by
  constructor <;> rfl

/-- C6 counterexample: extractall does not skip an entry whose destination
already exists — extracting an archive holding (a, [2]) over an output
directory where path a holds [1] overwrites it with [2], instead of leaving
[1] in place as the claim states. -/
theorem extractall_overwrites_existing :
    extractall (fun q => if q = "a" then some [1] else none) [("a", [2])] "a" = some [2] ∧
    (some [2] : Option (List Nat)) ≠ some [1] := by
  constructor
  · rfl
  · simp

theorem extractall_apply (archive : List (String × List Nat)) (out : Disk) (q : String) :
    extractall out archive q =
      match archive.reverse.find? (fun e => e.1 == q) with
      | some e => some e.2
      | none => out q := by
  induction archive generalizing out with
  | nil => rfl
  | cons e rest ih =>
    have h1 : extractall out (e :: rest) q =
        extractall (fun q2 => if q2 = e.1 then some e.2 else out q2) rest q := rfl
    rw [h1, ih, List.reverse_cons, List.find?_append]
    cases hfind : rest.reverse.find? (fun x => x.1 == q) with
    | some e2 => simp
    | none =>
      by_cases hq : q = e.1
      · simp [hq]
      · simp [Option.orElse]
        rw [if_neg (show ¬(e.1 = q) from fun h => hq h.symm)]
        simp [hq]

/-- C6 amended: when an entry's destination already exists, extractall
overwrites it with the archive's contents and raises no error; consequently
re-extracting the same archive into the same output directory is idempotent —
the second extraction leaves every path exactly as the first left it. -/
theorem extractall_idempotent (out : Disk) (archive : List (String × List Nat)) (q : String) :
    extractall (extractall out archive) archive q = extractall out archive q := by
  rw [extractall_apply, extractall_apply]
  cases hfind : archive.reverse.find? (fun e => e.1 == q) <;> simp [hfind]

/-- C7 counterexample: with one archive to unpack on a single-core machine,
the unpack pool is created with CPython's default bound of 5 workers, more
than the single unit of work — not min(configured, 1) as the claim states. -/
theorem unzip_pool_ignores_archive_count :
    default_max_workers 1 = 5 ∧ ¬(default_max_workers 1 ≤ 1) := by decide

/-- C7 amended: the pack pool (zipper.py line 75) is created with bound
min(16, number of batches), hence never more workers than batches; the
unpack pool (unzipper.py line 41) is created with no explicit bound, getting
CPython's default min(32, cpu_count + 4), which is independent of the number
of archives and exceeds it whenever fewer than five archives exist. -/
theorem worker_bounds :
    (∀ n : Nat, max_workers n = min 16 n ∧ max_workers n ≤ n ∧ max_workers n ≤ 16) ∧
    (∀ cpu N : Nat, N < 5 → N < default_max_workers cpu) := by
  constructor
  · intro n
    exact ⟨rfl, Nat.min_le_right 16 n, Nat.min_le_left 16 n⟩
  · intro cpu N hN
    simp only [default_max_workers]
    omega

/-- Witness for C7's amended bound at one archive on one core. -/
theorem worker_bounds_witness : 1 < default_max_workers 1 :=
  worker_bounds.2 1 1 (by decide)

theorem countP_filter_of_true {l : List Entry} {e : Entry} {q : Entry → Bool} (hq : q e = true) :
    (l.filter q).countP (fun x => decide (x = e)) = l.countP (fun x => decide (x = e)) := by
  induction l with
  | nil => rfl
  | cons a rest ih =>
    by_cases ha : a = e
    · subst ha
      rw [List.filter_cons, if_pos hq]
      simp [List.countP_cons, ih]
    · rw [List.filter_cons]
      cases hqa : q a
      · simp [List.countP_cons, ih, ha]
      · simp [List.countP_cons, ih, ha]

/-- C8: a scanned file larger than the limit is warned about and excluded —
its path is among the skip warnings of the continuing scan and its entry
appears in no batch — while a file whose size is exactly at (or below) the
limit passes the strict > filter and is batched: its entry occurs in the
batches exactly as often as in the scan, and in particular lies in some
batch. -/
theorem exclusion_law (walk : List Entry) (limit : Nat) (e : Entry) (he : e ∈ walk) :
    (limit < e.2 → e.1 ∈ skipped_warnings walk limit ∧ ∀ b ∈ batches walk limit, e ∉ b) ∧
    (e.2 ≤ limit →
      (batches walk limit).flatten.countP (fun x => decide (x = e)) =
        walk.countP (fun x => decide (x = e)) ∧
      ∃ b ∈ batches walk limit, e ∈ b) := by
  constructor
  · intro hgt
    constructor
    · rw [skipped_warnings]
      exact List.mem_map_of_mem Prod.fst (List.mem_filter.mpr ⟨he, by simpa using hgt⟩)
    · intro b hb hmem
      have h1 : e ∈ (batches walk limit).flatten := List.mem_flatten.mpr ⟨b, hb, hmem⟩
      have h2 : e ∈ files_to_zip walk limit := (batches_flatten_perm walk limit).mem_iff.mp h1
      have := mem_files_to_zip_size_le e h2
      omega
  · intro hle
    have hcount := (batches_flatten_perm walk limit).countP_eq (fun x => decide (x = e))
    have hfc : (files_to_zip walk limit).countP (fun x => decide (x = e)) =
        walk.countP (fun x => decide (x = e)) := by
      rw [files_to_zip]
      exact countP_filter_of_true (by simpa using hle)
    have h2 : e ∈ files_to_zip walk limit :=
      List.mem_filter.mpr ⟨he, by simpa using hle⟩
    have h1 : e ∈ (batches walk limit).flatten :=
      (batches_flatten_perm walk limit).mem_iff.mpr h2
    rcases List.mem_flatten.mp h1 with ⟨b, hb, hmem⟩
    exact ⟨by rw [hcount, hfc], b, hb, hmem⟩

/-- Witness for C8: scan [(big, 5), (edge, 3)] with limit 3, at the
boundary entry (edge, 3). -/
theorem exclusion_law_witness :
    (3 < ("edge", 3).2 →
      ("edge", 3).1 ∈ skipped_warnings [("big", 5), ("edge", 3)] 3 ∧
      ∀ b ∈ batches [("big", 5), ("edge", 3)] 3, ("edge", 3) ∉ b) ∧
    (("edge", 3).2 ≤ 3 →
      (batches [("big", 5), ("edge", 3)] 3).flatten.countP (fun x => decide (x = ("edge", 3))) =
        [("big", 5), ("edge", 3)].countP (fun x => decide (x = ("edge", 3))) ∧
      ∃ b ∈ batches [("big", 5), ("edge", 3)] 3, ("edge", 3) ∈ b) :=
  exclusion_law [("big", 5), ("edge", 3)] 3 ("edge", 3) (by decide)

theorem find?_key_of_mem {l : FileSet} {f : String × List Nat}
    (hnd : (l.map Prod.fst).Nodup) (hf : f ∈ l) :
    l.find? (fun g => g.1 == f.1) = some f := by
  induction l with
  | nil => simp at hf
  | cons g rest ih =>
    rcases List.mem_cons.mp hf with h | h
    · subst h
      exact List.find?_cons_of_pos _ (by simp)
    · have hgf : ¬(g.1 == f.1) = true := by
        simp only [beq_iff_eq]
        intro hEq
        have hmem : f.1 ∈ rest.map Prod.fst := List.mem_map_of_mem Prod.fst h
        rw [← hEq] at hmem
        exact (List.nodup_cons.mp hnd).1 hmem
      have hstep : List.find? (fun g => g.1 == f.1) (g :: rest) =
          List.find? (fun g => g.1 == f.1) rest := by
        simp [List.find?, hgf]
      rw [hstep]
      exact ih (List.nodup_cons.mp hnd).2 h

theorem readFile_of_mem {files : FileSet} {f : String × List Nat}
    (hnd : (files.map Prod.fst).Nodup) (hf : f ∈ files) :
    readFile files f.1 = f.2 := by
  rw [readFile, find?_key_of_mem hnd hf]
  rfl

theorem unzip_files_extract_eq (archives : List (List (String × List Nat))) (out : Disk) :
    unzip_files_extract archives out = extractall out archives.flatten := by
  rw [unzip_files_extract,
    show extractall out archives.flatten =
      archives.flatten.foldl (fun d e => fun q => if q = e.1 then some e.2 else d q) out from rfl,
    List.foldl_flatten]
  rfl

/-- C2 counterexample: with limit 1 the file (b, [7, 7]) of size 2 is
excluded by the scan filter, so packing the set {(a, [0]), (b, [7, 7])} and
extracting every produced archive into a fresh output directory does not
reproduce b — its path is absent from the extracted tree. -/
theorem round_trip_fails_for_oversized :
    save_in_zip [("a", [0]), ("b", [7, 7])] 1 = Except.ok [[("a", [0])]] ∧
    unzip_files_extract [[("a", [0])]] (fun _ => none) "b" = none ∧
    (none : Option (List Nat)) ≠ some [7, 7] := by
  have h1 : batches (walkOf [("a", [0]), ("b", [7, 7])]) 1 = [[("a", 1)]] := by
    rw [batches,
      show files_to_zip (walkOf [("a", [0]), ("b", [7, 7])]) 1 = [("a", 1)] from by decide,
      sortBySizeDesc_of_sorted (by decide)]
    decide
  refine ⟨?_, rfl, by simp⟩
  simp only [save_in_zip, h1]
  rfl

/-- C2 amended: for every non-empty file set with distinct relative paths in
which every file's size is at most the limit, save_in_zip succeeds and
extracting all produced archives into a fresh output directory reproduces
exactly the original tree — every scanned relative path holds byte-identical
contents and no other path exists. -/
theorem pack_unpack_round_trip (files : FileSet) (limit : Nat)
    (hnd : (files.map Prod.fst).Nodup)
    (hsize : ∀ f ∈ files, f.2.length ≤ limit)
    (hne : files ≠ []) :
    ∃ archives, save_in_zip files limit = Except.ok archives ∧
      ∀ p : String,
        unzip_files_extract archives (fun _ => none) p =
          (files.find? (fun f => f.1 == p)).map Prod.snd := by
  have hfil : files_to_zip (walkOf files) limit = walkOf files := by
    apply List.filter_eq_self.mpr
    intro a ha
    rcases List.mem_map.mp ha with ⟨f, hf, rfl⟩
    simpa using hsize f hf
  have hperm : (batches (walkOf files) limit).flatten.Perm (walkOf files) := by
    have h := batches_flatten_perm (walkOf files) limit
    rwa [hfil] at h
  have hbs_ne : batches (walkOf files) limit ≠ [] := by
    intro h0
    rw [h0] at hperm
    have hw : walkOf files = [] := hperm.symm.eq_nil
    rw [walkOf] at hw
    exact hne (List.map_eq_nil_iff.mp hw)
  have hmw : ¬(max_workers (batches (walkOf files) limit).length = 0) := by
    rw [max_workers]
    have : (batches (walkOf files) limit).length ≠ 0 :=
      fun h => hbs_ne (List.length_eq_zero.mp h)
    omega
  refine ⟨(batches (walkOf files) limit).map (zip_batch files), ?_, ?_⟩
  · simp only [save_in_zip]
    rw [if_neg hmw]
  · intro p
    rw [unzip_files_extract_eq, extractall_apply]
    have hflat : ((batches (walkOf files) limit).map (zip_batch files)).flatten =
        (batches (walkOf files) limit).flatten.map (fun e => (e.1, readFile files e.1)) := by
      rw [List.map_flatten]
      rfl
    have hpermE : (((batches (walkOf files) limit).map (zip_batch files)).flatten).Perm files := by
      rw [hflat]
      have h2 : ((batches (walkOf files) limit).flatten.map
          (fun e => (e.1, readFile files e.1))).Perm
          ((walkOf files).map (fun e => (e.1, readFile files e.1))) := hperm.map _
      have h3 : (walkOf files).map (fun e => (e.1, readFile files e.1)) = files := by
        rw [walkOf, List.map_map]
        have : ∀ f ∈ files, ((fun e : Entry => (e.1, readFile files e.1)) ∘
            fun f : String × List Nat => (f.1, f.2.length)) f = id f := by
          intro f hf
          simp [readFile_of_mem hnd hf]
        rw [List.map_congr_left this, List.map_id]
      rwa [h3] at h2
    cases hfind : (((batches (walkOf files) limit).map (zip_batch files)).flatten).reverse.find?
        (fun e => e.1 == p) with
    | none =>
      have hnone : files.find? (fun f => f.1 == p) = none := by
        apply List.find?_eq_none.mpr
        intro f hf
        have hfE : f ∈ (((batches (walkOf files) limit).map (zip_batch files)).flatten).reverse :=
          List.mem_reverse.mpr (hpermE.symm.subset hf)
        exact List.find?_eq_none.mp hfind f hfE
      simp [hnone]
    | some f =>
      have hfp : f.1 = p := by simpa using List.find?_some hfind
      have hfmem : f ∈ files :=
        hpermE.subset (List.mem_reverse.mp (List.mem_of_find?_eq_some hfind))
      have : files.find? (fun g => g.1 == p) = some f := by
        rw [← hfp]
        exact find?_key_of_mem hnd hfmem
      simp [this]

/-- Witness for C2's amended round trip on the set {(a, [5]), (b, [6, 7])}
with limit 2. -/
theorem pack_unpack_round_trip_witness :
    ∃ archives, save_in_zip [("a", [5]), ("b", [6, 7])] 2 = Except.ok archives ∧
      ∀ p : String,
        unzip_files_extract archives (fun _ => none) p =
          ([("a", [5]), ("b", [6, 7])].find? (fun f => f.1 == p)).map Prod.snd :=
  pack_unpack_round_trip [("a", [5]), ("b", [6, 7])] 2 (by decide) (by decide) (by decide)

theorem toUpper_of_isDigit {c : Char} (h : c.isDigit = true) : c.toUpper = c := by
  have hle : c.val ≤ 57 := by
    simp [Char.isDigit] at h
    exact h.2
  have hle2 : c.val.toNat ≤ 57 := hle
  rw [Char.toUpper, if_neg]
  intro hcon
  have h97 : 97 ≤ c.val.toNat := hcon.1
  omega

theorem pyIsSpace_of_isDigit {c : Char} (h : c.isDigit = true) : pyIsSpace c = false := by
  have h1 : c ≠ ' ' := fun hh => by rw [hh] at h; exact absurd h (by decide)
  have h2 : c ≠ '\t' := fun hh => by rw [hh] at h; exact absurd h (by decide)
  have h3 : c ≠ '\n' := fun hh => by rw [hh] at h; exact absurd h (by decide)
  have h4 : c ≠ '\r' := fun hh => by rw [hh] at h; exact absurd h (by decide)
  simp [pyIsSpace, h1, h2, h3, h4]

theorem dropWhile_eq_nil_of_all {p : Char → Bool} {l : List Char}
    (h : ∀ c ∈ l, p c = true) : l.dropWhile p = [] := by
  induction l with
  | nil => rfl
  | cons a rest ih =>
    rw [List.dropWhile_cons, if_pos (h a (by simp))]
    exact ih (fun c hc => h c (by simp [hc]))

theorem dropWhile_eq_self_of_all {p : Char → Bool} {l : List Char}
    (h : ∀ c ∈ l, p c = false) : l.dropWhile p = l := by
  cases l with
  | nil => rfl
  | cons a rest =>
    rw [List.dropWhile_cons, if_neg (by simp [h a (by simp)])]

theorem pyStrip_eq_self {s : List Char} (h : ∀ c ∈ s, pyIsSpace c = false) :
    pyStrip s = s := by
  rw [pyStrip, dropWhile_eq_self_of_all h,
    dropWhile_eq_self_of_all (fun c hc => h c (List.mem_reverse.mp hc)), List.reverse_reverse]

theorem not_suffix_two_of_ne {ds : List Char} {x y b : Char} (hxy : x ≠ y) :
    ¬([x, b] <:+ ds ++ [y, b]) := by
  intro h
  have h2 := List.reverse_prefix.mpr h
  rw [List.reverse_append] at h2
  have h3 : ([x, b].reverse : List Char) = [b, x] := rfl
  have h4 : ([y, b].reverse : List Char) = [b, y] := rfl
  rw [h3, h4] at h2
  have h5 := (List.cons_prefix_cons.mp h2).2
  exact hxy (List.cons_prefix_cons.mp h5).1

theorem mem_of_suffix_one {ds : List Char} {x b : Char} (h : [x, b] <:+ ds ++ [b]) :
    x ∈ ds := by
  have h2 := List.reverse_prefix.mpr h
  rw [List.reverse_append] at h2
  have h3 : ([x, b].reverse : List Char) = [b, x] := rfl
  have h4 : ([b].reverse : List Char) = [b] := rfl
  rw [h3, h4] at h2
  have h5 := (List.cons_prefix_cons.mp h2).2
  have h6 : x ∈ ds.reverse := h5.subset (by simp)
  exact List.mem_reverse.mp h6

theorem endsWith_unit_self (ds u : List Char) : pyEndsWith (ds ++ u) u = true :=
  decide_eq_true (List.suffix_append ds u)

theorem endsWith_two_of_two_false {ds : List Char} {x y b : Char} (hxy : x ≠ y) :
    pyEndsWith (ds ++ [y, b]) [x, b] = false :=
  decide_eq_false (not_suffix_two_of_ne hxy)

theorem endsWith_two_of_one_false {ds : List Char} {x b : Char}
    (hdig : ∀ c ∈ ds, c.isDigit = true) (hxd : x.isDigit = false) :
    pyEndsWith (ds ++ [b]) [x, b] = false := by
  apply decide_eq_false
  intro h
  have := hdig x (mem_of_suffix_one h)
  simp [this] at hxd

theorem endsWith_digits_false {ds : List Char} (hdig : ∀ c ∈ ds, c.isDigit = true)
    {u : List Char} (hb : 'B' ∈ u) : pyEndsWith ds u = false := by
  apply decide_eq_false
  intro h
  have hBds : 'B' ∈ ds := h.subset hb
  have := hdig _ hBds
  exact absurd this (by decide)

theorem notin_unit {ds : List Char} (hdig : ∀ c ∈ ds, c.isDigit = true)
    {u : List Char} (hu : ∀ c ∈ u, c.isDigit = false) :
    ∀ c ∈ ds, decide (c ∈ u) = false := by
  intro c hc
  apply decide_eq_false
  intro hcu
  have h1 := hdig c hc
  have h2 := hu c hcu
  simp [h1] at h2

theorem pyRstrip_append {ds u : List Char} (hnd : ∀ c ∈ ds, decide (c ∈ u) = false) :
    pyRstrip (ds ++ u) u = ds := by
  rw [pyRstrip, List.reverse_append, List.dropWhile_append,
    dropWhile_eq_nil_of_all (fun c hc => decide_eq_true (List.mem_reverse.mp hc))]
  simp only [List.isEmpty_nil, if_true]
  rw [dropWhile_eq_self_of_all (fun c hc => hnd c (List.mem_reverse.mp hc)),
    List.reverse_reverse]

theorem map_toUpper_digits {ds : List Char} (hdig : ∀ c ∈ ds, c.isDigit = true) :
    ds.map Char.toUpper = ds := by
  have h : ∀ c ∈ ds, Char.toUpper c = id c := fun c hc => toUpper_of_isDigit (hdig c hc)
  rw [List.map_congr_left h, List.map_id]

theorem parse_size_eval {s : String} {ds U : List Char} {m : Nat}
    (hmap : pyStrip (s.data.map Char.toUpper) = ds ++ U)
    (hfind : findUnit (ds ++ U) units = some (U, m))
    (hnotin : ∀ c ∈ ds, decide (c ∈ U) = false)
    (hne : ds ≠ []) (hdig : ∀ c ∈ ds, c.isDigit = true)
    (hval : digitsVal ds < 2 ^ 53) :
    parse_size s = some (digitsVal ds * m) := by
  simp only [parse_size, hmap, hfind]
  rw [pyRstrip_append hnotin]
  rw [pyFloatInt, pyInt, if_pos ⟨hne, List.all_eq_true.mpr hdig⟩]
  simp only [Option.map_some']
  simp only [round53, if_pos hval]

/-- C9 counterexample: parse_size("9007199254740993B") — the decimal number
9007199254740993 = 2^53 + 1 followed by unit B — returns 9007199254740992
instead of number × 1: float(...) in zipper.py line 96 rounds the number to
the nearest binary64 value before the multiplication. -/
theorem parse_size_float_rounds :
    parse_size "9007199254740993B" = some 9007199254740992 ∧
    (9007199254740993 : Nat) * 1 ≠ 9007199254740992 := by
  constructor
  · have hmap : pyStrip ("9007199254740993B".data.map Char.toUpper) =
        "9007199254740993".data ++ ['B'] := by rfl
    have hfind : findUnit ("9007199254740993".data ++ ['B']) units = some (['B'], 1) := by rfl
    have hrs : pyRstrip ("9007199254740993".data ++ ['B']) ['B'] =
        "9007199254740993".data := by rfl
    have hint : pyInt "9007199254740993".data = some 9007199254740993 := by rfl
    have hr : round53 9007199254740993 = 9007199254740992 := by
      have hlog : Nat.log2 9007199254740993 = 53 := by norm_num [Nat.log2]
      simp only [round53]
      rw [if_neg (by decide), hlog]
      decide
    simp only [parse_size, hmap, hfind, pyFloatInt, hrs, hint, Option.map_some', hr]
  · decide

/-- C9 amended: for every string made of a decimal number below 2^53 (so the
float conversion is exact) followed by a unit suffix in {GB, MB, KB, B} in
any letter case — matched in that priority order, so B only matches when
none of GB/MB/KB did — parse_size returns number × multiplier (GB = 1024^3,
MB = 1024^2, KB = 1024, B = 1); a bare decimal number with no suffix is
parsed exactly as a raw integer at any magnitude; in particular
parse_size("20GB") = 20 × 1024^3, parse_size("512MB") = 512 × 1024^2 and
parse_size("100") = 100. -/
theorem parse_size_contract :
    (∀ (ds suf : List Char) (m : Nat), ds ≠ [] → ds.all Char.isDigit = true →
      digitsVal ds < 2 ^ 53 →
      ((suf.map Char.toUpper = ['G', 'B'] ∧ m = 1024 ^ 3) ∨
       (suf.map Char.toUpper = ['M', 'B'] ∧ m = 1024 ^ 2) ∨
       (suf.map Char.toUpper = ['K', 'B'] ∧ m = 1024) ∨
       (suf.map Char.toUpper = ['B'] ∧ m = 1)) →
      parse_size (String.mk (ds ++ suf)) = some (digitsVal ds * m)) ∧
    (∀ ds : List Char, ds ≠ [] → ds.all Char.isDigit = true →
      parse_size (String.mk ds) = some (digitsVal ds)) ∧
    parse_size "20GB" = some (20 * 1024 ^ 3) ∧
    parse_size "512MB" = some (512 * 1024 ^ 2) ∧
    parse_size "100" = some 100 := by
  refine ⟨?_, ?_, by rfl, by rfl, by rfl⟩
  · intro ds suf m hne hdigAll hval hsuf
    have hdig : ∀ c ∈ ds, c.isDigit = true := List.all_eq_true.mp hdigAll
    have hdsns : ∀ c ∈ ds, pyIsSpace c = false := fun c hc => pyIsSpace_of_isDigit (hdig c hc)
    rcases hsuf with ⟨hU, rfl⟩ | ⟨hU, rfl⟩ | ⟨hU, rfl⟩ | ⟨hU, rfl⟩
    · have hmap : pyStrip ((String.mk (ds ++ suf)).data.map Char.toUpper) = ds ++ ['G', 'B'] := by
        rw [show (String.mk (ds ++ suf)).data = ds ++ suf from rfl, List.map_append,
          map_toUpper_digits hdig, hU]
        refine pyStrip_eq_self ?_
        intro c hc
        rcases List.mem_append.mp hc with h | h
        · exact hdsns c h
        · simp at h
          rcases h with rfl | rfl <;> decide
      have hfind : findUnit (ds ++ ['G', 'B']) units = some (['G', 'B'], 1024 ^ 3) := by
        simp [units, findUnit, endsWith_unit_self]
      exact parse_size_eval hmap hfind (notin_unit hdig (by decide)) hne hdig hval
    · have hmap : pyStrip ((String.mk (ds ++ suf)).data.map Char.toUpper) = ds ++ ['M', 'B'] := by
        rw [show (String.mk (ds ++ suf)).data = ds ++ suf from rfl, List.map_append,
          map_toUpper_digits hdig, hU]
        refine pyStrip_eq_self ?_
        intro c hc
        rcases List.mem_append.mp hc with h | h
        · exact hdsns c h
        · simp at h
          rcases h with rfl | rfl <;> decide
      have hfind : findUnit (ds ++ ['M', 'B']) units = some (['M', 'B'], 1024 ^ 2) := by
        have h1 : pyEndsWith (ds ++ ['M', 'B']) ['G', 'B'] = false :=
          endsWith_two_of_two_false (by decide)
        simp [units, findUnit, h1, endsWith_unit_self]
      exact parse_size_eval hmap hfind (notin_unit hdig (by decide)) hne hdig hval
    · have hmap : pyStrip ((String.mk (ds ++ suf)).data.map Char.toUpper) = ds ++ ['K', 'B'] := by
        rw [show (String.mk (ds ++ suf)).data = ds ++ suf from rfl, List.map_append,
          map_toUpper_digits hdig, hU]
        refine pyStrip_eq_self ?_
        intro c hc
        rcases List.mem_append.mp hc with h | h
        · exact hdsns c h
        · simp at h
          rcases h with rfl | rfl <;> decide
      have hfind : findUnit (ds ++ ['K', 'B']) units = some (['K', 'B'], 1024) := by
        have h1 : pyEndsWith (ds ++ ['K', 'B']) ['G', 'B'] = false :=
          endsWith_two_of_two_false (by decide)
        have h2 : pyEndsWith (ds ++ ['K', 'B']) ['M', 'B'] = false :=
          endsWith_two_of_two_false (by decide)
        simp [units, findUnit, h1, h2, endsWith_unit_self]
      exact parse_size_eval hmap hfind (notin_unit hdig (by decide)) hne hdig hval
    · have hmap : pyStrip ((String.mk (ds ++ suf)).data.map Char.toUpper) = ds ++ ['B'] := by
        rw [show (String.mk (ds ++ suf)).data = ds ++ suf from rfl, List.map_append,
          map_toUpper_digits hdig, hU]
        refine pyStrip_eq_self ?_
        intro c hc
        rcases List.mem_append.mp hc with h | h
        · exact hdsns c h
        · simp at h
          rw [h]
          decide
      have hfind : findUnit (ds ++ ['B']) units = some (['B'], 1) := by
        have h1 : pyEndsWith (ds ++ ['B']) ['G', 'B'] = false :=
          endsWith_two_of_one_false hdig (by decide)
        have h2 : pyEndsWith (ds ++ ['B']) ['M', 'B'] = false :=
          endsWith_two_of_one_false hdig (by decide)
        have h3 : pyEndsWith (ds ++ ['B']) ['K', 'B'] = false :=
          endsWith_two_of_one_false hdig (by decide)
        simp [units, findUnit, h1, h2, h3, endsWith_unit_self]
      exact parse_size_eval hmap hfind (notin_unit hdig (by decide)) hne hdig hval
  · intro ds hne hdigAll
    have hdig : ∀ c ∈ ds, c.isDigit = true := List.all_eq_true.mp hdigAll
    have hmap : pyStrip ((String.mk ds).data.map Char.toUpper) = ds := by
      rw [show (String.mk ds).data = ds from rfl, map_toUpper_digits hdig]
      exact pyStrip_eq_self (fun c hc => pyIsSpace_of_isDigit (hdig c hc))
    have h1 : pyEndsWith ds ['G', 'B'] = false := endsWith_digits_false hdig (by decide)
    have h2 : pyEndsWith ds ['M', 'B'] = false := endsWith_digits_false hdig (by decide)
    have h3 : pyEndsWith ds ['K', 'B'] = false := endsWith_digits_false hdig (by decide)
    have h4 : pyEndsWith ds ['B'] = false := endsWith_digits_false hdig (by decide)
    have hfind : findUnit ds units = none := by
      simp [units, findUnit, h1, h2, h3, h4]
    simp only [parse_size, hmap, hfind]
    rw [pyInt, if_pos ⟨hne, hdigAll⟩]

/-- Witness for C9's amended contract at "20gb" (lower case), "7" and the
concrete examples. -/
theorem parse_size_contract_witness :
    parse_size (String.mk (['2', '0'] ++ ['g', 'b'])) =
      some (digitsVal ['2', '0'] * 1024 ^ 3) ∧
    parse_size (String.mk ['7']) = some (digitsVal ['7']) :=
  ⟨parse_size_contract.1 ['2', '0'] ['g', 'b'] (1024 ^ 3) (by decide) (by decide) (by decide)
      (Or.inl ⟨by decide, rfl⟩),
    parse_size_contract.2.1 ['7'] (by decide) (by decide)⟩
